import Mathlib

/-!
# ArbolABB: binary search tree with insertion and three traversals

Shallow embedding of `src/ArbolABB.cpp`.

* A `Nodo*` is either `nullptr` or the address of an exclusively owned `Nodo`;
  it is embedded as the inductive type `Nodo` (constructor fields in the order
  of the struct: `dato`, `izq`, `der`).
* Keys are C++ `int`; the program only compares them (`v < nodo->dato`), it
  never does arithmetic on them, so they are embedded as `Int`. Every concrete
  input used below fits in 32 bits.
* The traversals write to `cout`; the stream is embedded as explicit state, the
  list of keys written so far (the separating blanks and the final newline are
  not recorded).
* `new` and `delete` need object identity: the namespace `Memoria` embeds
  `insertarRec` and `liberar` a second time over an explicit free store, and
  `Memoria.insertarTodos_representa` relates that embedding to the one over
  trees.
-/

namespace ArbolABB

/-- A `Nodo*`: `nullptr`, or a node holding `dato` and owning `izq` and `der`. -/
inductive Nodo where
  | nullptr : Nodo
  | mk (dato : Int) (izq : Nodo) (der : Nodo) : Nodo
  deriving DecidableEq, Repr

/-- `ABB::insertarRec` (lines 69-74). -/
def insertarRec : Nodo → Int → Nodo
  | .nullptr, v => .mk v .nullptr .nullptr
  | .mk dato izq der, v =>
    if v < dato then .mk dato (insertarRec izq v) der
    else .mk dato izq (insertarRec der v)

/-- `ABB::preordenRec` (lines 77-82); `out` is the stream written so far. -/
def preordenRec : Nodo → List Int → List Int
  | .nullptr, out => out
  | .mk dato izq der, out => preordenRec der (preordenRec izq (out ++ [dato]))

/-- `ABB::inordenRec` (lines 85-90); `out` is the stream written so far. -/
def inordenRec : Nodo → List Int → List Int
  | .nullptr, out => out
  | .mk dato izq der, out => inordenRec der (inordenRec izq out ++ [dato])

/-- `ABB::postordenRec` (lines 93-98); `out` is the stream written so far. -/
def postordenRec : Nodo → List Int → List Int
  | .nullptr, out => out
  | .mk dato izq der, out => postordenRec der (postordenRec izq out) ++ [dato]

/-- The class `ABB`: its only member is the root pointer. -/
structure ABB where
  raiz : Nodo
  deriving DecidableEq, Repr

/-- The constructor `ABB() : raiz(nullptr)` (line 44). -/
def ABB.nuevo : ABB := ⟨.nullptr⟩

/-- `ABB::insertar` (line 48). -/
def ABB.insertar (a : ABB) (v : Int) : ABB := ⟨insertarRec a.raiz v⟩

/-- `ABB::preorden` (line 51): the keys written to a fresh stream. -/
def ABB.preorden (a : ABB) : List Int := preordenRec a.raiz []

/-- `ABB::inorden` (line 52): the keys written to a fresh stream. -/
def ABB.inorden (a : ABB) : List Int := inordenRec a.raiz []

/-- `ABB::postorden` (line 53): the keys written to a fresh stream. -/
def ABB.postorden (a : ABB) : List Int := postordenRec a.raiz []

/-- `ABB::limpiar` (line 56): `liberar(raiz)` only releases storage, after which
the root pointer is reset to `nullptr`. -/
def ABB.limpiar (_a : ABB) : ABB := ⟨.nullptr⟩

/-- The insertion loop of `ejecutarEjercicio` (lines 122-124), started from the
tree `a`. -/
def insertarTodos (a : ABB) (datos : List Int) : ABB := datos.foldl ABB.insertar a

/-- `ejecutarEjercicio` (lines 117-131): a local `ABB`, the insertion loop, and
the three traversals in the order preorder, inorder, postorder. -/
def ejecutarEjercicio (datos : List Int) : List Int × List Int × List Int :=
  let arbol := insertarTodos ABB.nuevo datos
  (arbol.preorden, arbol.inorden, arbol.postorden)

/-- One call on the public interface of `ABB` that changes the tree. -/
inductive Op where
  | insertar (v : Int) : Op
  | limpiar : Op
  deriving DecidableEq, Repr

/-- Effect of one public call on the object. -/
def ABB.aplicar (a : ABB) : Op → ABB
  | .insertar v => a.insertar v
  | .limpiar => a.limpiar

/-- Effect of a sequence of public calls, first call first. -/
def ABB.ejecutar (a : ABB) (ops : List Op) : ABB := ops.foldl ABB.aplicar a

/-- Whether a call is an `insertar`. -/
def Op.esInsertar : Op → Bool
  | .insertar _ => true
  | .limpiar => false

/-- Number of `insertar` calls made after the last `limpiar` of `ops` (all of
them when there is no `limpiar`): the length of the longest suffix of `ops`
made of `insertar` calls only. -/
def insercionesDesdeLimpiar (ops : List Op) : Nat :=
  (ops.reverse.takeWhile Op.esInsertar).length

/-- The predicate `p` holds of the key of every node reachable from the pointer. -/
def Todos (p : Int → Prop) : Nodo → Prop
  | .nullptr => True
  | .mk dato izq der => p dato ∧ Todos p izq ∧ Todos p der

/-- The BST invariant: at every node, every key of the left subtree is strictly
less than the node's key and every key of the right subtree is greater than or
equal to it. -/
def esABB : Nodo → Prop
  | .nullptr => True
  | .mk dato izq der =>
    Todos (fun x => x < dato) izq ∧ Todos (fun x => dato ≤ x) der ∧ esABB izq ∧ esABB der

instance instDecidableTodos (p : Int → Prop) [DecidablePred p] :
    (t : Nodo) → Decidable (Todos p t)
  | .nullptr => isTrue (by simp [Todos])
  | .mk dato izq der =>
    match (inferInstance : Decidable (p dato)), instDecidableTodos p izq,
        instDecidableTodos p der with
    | isTrue h1, isTrue h2, isTrue h3 => isTrue (by simp [Todos, h1, h2, h3])
    | isFalse h1, _, _ => isFalse (by simp [Todos, h1])
    | _, isFalse h2, _ => isFalse (by simp [Todos, h2])
    | _, _, isFalse h3 => isFalse (by simp [Todos, h3])

instance instDecidableEsABB : (t : Nodo) → Decidable (esABB t)
  | .nullptr => isTrue (by simp [esABB])
  | .mk dato izq der =>
    match instDecidableTodos (fun x => x < dato) izq,
        instDecidableTodos (fun x => dato ≤ x) der,
        instDecidableEsABB izq, instDecidableEsABB der with
    | isTrue h1, isTrue h2, isTrue h3, isTrue h4 => isTrue (by simp [esABB, h1, h2, h3, h4])
    | isFalse h1, _, _, _ => isFalse (by simp [esABB, h1])
    | _, isFalse h2, _, _ => isFalse (by simp [esABB, h2])
    | _, _, isFalse h3, _ => isFalse (by simp [esABB, h3])
    | _, _, _, isFalse h4 => isFalse (by simp [esABB, h4])

/-- The right-only chain holding the keys of `xs` from the root downwards: the
shape of the tree of the first exercise (lines 134-137). -/
def cadenaDer : List Int → Nodo
  | [] => .nullptr
  | x :: xs => .mk x .nullptr (cadenaDer xs)

/-- The two macro-states of the object. -/
inductive Estado where
  | EMPTY : Estado
  | NON_EMPTY : Estado
  deriving DecidableEq, Repr

/-- The macro-state of the object: EMPTY when `raiz` is null, NON-EMPTY otherwise. -/
def ABB.estado (a : ABB) : Estado :=
  match a.raiz with
  | .nullptr => .EMPTY
  | .mk _ _ _ => .NON_EMPTY

/-- Height: number of nodes on the longest path from the root to a leaf, 0 for
the empty tree. -/
def altura : Nodo → Nat
  | .nullptr => 0
  | .mk _ izq der => 1 + max (altura izq) (altura der)

/-- Number of nodes reachable from the pointer. -/
def nodos : Nodo → Nat
  | .nullptr => 0
  | .mk _ izq der => 1 + nodos izq + nodos der

/-- No node has a left child. -/
def sinHijoIzq : Nodo → Bool
  | .nullptr => true
  | .mk _ izq der => decide (izq = .nullptr) && sinHijoIzq izq && sinHijoIzq der

/-- Every node has at most one child. -/
def aLoSumoUnHijo : Nodo → Bool
  | .nullptr => true
  | .mk _ izq der =>
    (decide (izq = .nullptr) || decide (der = .nullptr)) && aLoSumoUnHijo izq && aLoSumoUnHijo der

/-- `ABB::insertarRec` (lines 69-74) instrumented with a counter: the second
component is the number of evaluations of the test `v < nodo->dato` (line 71)
made by the call, the first is the tree it returns. -/
def insertarRecContando : Nodo → Int → Nodo × Nat
  | .nullptr, v => (.mk v .nullptr .nullptr, 0)
  | .mk dato izq der, v =>
    if v < dato then
      ((Nodo.mk dato (insertarRecContando izq v).1 der), (insertarRecContando izq v).2 + 1)
    else
      ((Nodo.mk dato izq (insertarRecContando der v).1), (insertarRecContando der v).2 + 1)

/-- The tree `t'` is the tree `t` with one absent child slot (or the empty tree
itself) replaced by a new node holding `v` that has no children; every other
node keeps its key, its place and its other links. -/
def agregaHoja (v : Int) : Nodo → Nodo → Bool
  | .nullptr, t' => decide (t' = .mk v .nullptr .nullptr)
  | .mk _ _ _, .nullptr => false
  | .mk d L R, .mk d' L' R' =>
    decide (d = d') &&
      ((agregaHoja v L L' && decide (R = R')) || (decide (L = L') && agregaHoja v R R'))

/-- The list `l` with `v` inserted immediately after its last element that is
less than or equal to `v`, at the front when there is none. -/
def insertarTrasUltimoLE (v : Int) : List Int → List Int
  | [] => [v]
  | x :: xs =>
    if (x :: xs).any (fun y => decide (y ≤ v)) then x :: insertarTrasUltimoLE v xs
    else v :: x :: xs

/-! ## The free store

The definitions above embed a `Nodo*` as the tree it owns. The definitions of
this section embed the same code over an explicit free store, where a `Nodo*`
is `none` (`nullptr`) or an address, `new` and `delete` change the state of an
address, and reading or deleting an object that is not live is undefined
behaviour. The recursion is bounded by a budget `f`, since a pointer structure
need not be a tree. -/

namespace Memoria

/-- State of one address of the free store: never allocated, holding a live
`Nodo` object (fields `dato`, `izq`, `der`), or deleted. -/
inductive Celda where
  | libre : Celda
  | viva (dato : Int) (izq : Option Nat) (der : Option Nat) : Celda
  | borrada : Celda
  deriving DecidableEq, Repr

/-- The free store: the state of every address, the next address `new` hands
out, and the addresses passed to `delete` so far, oldest first. -/
structure Monticulo where
  celdas : Nat → Celda
  sig : Nat
  borrados : List Nat

/-- The free store at program start. -/
def Monticulo.vacio : Monticulo := ⟨fun _ => .libre, 0, []⟩

/-- Outcome of a call: a value, undefined behaviour (an object that is not
live was read, written or deleted), or recursion budget exhausted. -/
inductive Resultado (α : Type) where
  | ok (a : α) : Resultado α
  | indefinido : Resultado α
  | sinCombustible : Resultado α

/-- `new Nodo(v)` (lines 32 and 70): a live object at a fresh address, with
both child pointers null. -/
def Monticulo.nuevoNodo (h : Monticulo) (v : Int) : Monticulo × Option Nat :=
  (⟨Function.update h.celdas h.sig (.viva v none none), h.sig + 1, h.borrados⟩, some h.sig)

/-- `ABB::insertarRec` (lines 69-74) over the free store. -/
def insertarRec : Nat → Monticulo → Option Nat → Int → Resultado (Monticulo × Option Nat)
  | 0, _, _, _ => .sinCombustible
  | _ + 1, h, none, v => .ok (h.nuevoNodo v)
  | f + 1, h, some nodo, v =>
    match h.celdas nodo with
    | .viva dato izq der =>
      if v < dato then
        match insertarRec f h izq v with
        | .ok (h1, q) =>
          match h1.celdas nodo with
          | .viva dato1 _ der1 =>
            .ok (⟨Function.update h1.celdas nodo (.viva dato1 q der1), h1.sig, h1.borrados⟩,
              some nodo)
          | _ => .indefinido
        | .indefinido => .indefinido
        | .sinCombustible => .sinCombustible
      else
        match insertarRec f h der v with
        | .ok (h1, q) =>
          match h1.celdas nodo with
          | .viva dato1 izq1 _ =>
            .ok (⟨Function.update h1.celdas nodo (.viva dato1 izq1 q), h1.sig, h1.borrados⟩,
              some nodo)
          | _ => .indefinido
        | .indefinido => .indefinido
        | .sinCombustible => .sinCombustible
    | _ => .indefinido

/-- `ABB::liberar` (lines 104-109) over the free store: `nodo->izq` is read and
freed, then `nodo->der` is read and freed, then `nodo` is deleted. -/
def liberar : Nat → Monticulo → Option Nat → Resultado Monticulo
  | 0, _, _ => .sinCombustible
  | _ + 1, h, none => .ok h
  | f + 1, h, some nodo =>
    match h.celdas nodo with
    | .viva _ izq _ =>
      match liberar f h izq with
      | .ok h1 =>
        match h1.celdas nodo with
        | .viva _ _ der =>
          match liberar f h1 der with
          | .ok h2 =>
            match h2.celdas nodo with
            | .viva _ _ _ =>
              .ok ⟨Function.update h2.celdas nodo .borrada, h2.sig, h2.borrados ++ [nodo]⟩
            | _ => .indefinido
          | .indefinido => .indefinido
          | .sinCombustible => .sinCombustible
        | _ => .indefinido
      | .indefinido => .indefinido
      | .sinCombustible => .sinCombustible
    | _ => .indefinido

/-- The class `ABB` over the free store: the store and the root pointer. -/
structure ABB where
  mont : Monticulo
  raiz : Option Nat

/-- The constructor `ABB() : raiz(nullptr)` (line 44), at program start. -/
def ABB.nuevo : ABB := ⟨Monticulo.vacio, none⟩

/-- `ABB::insertar` (line 48) over the free store. -/
def ABB.insertar (f : Nat) (a : ABB) (v : Int) : Resultado ABB :=
  match insertarRec f a.mont a.raiz v with
  | .ok (h, p) => .ok ⟨h, p⟩
  | .indefinido => .indefinido
  | .sinCombustible => .sinCombustible

/-- `ABB::limpiar` (line 56) over the free store. -/
def ABB.limpiar (f : Nat) (a : ABB) : Resultado ABB :=
  match liberar f a.mont a.raiz with
  | .ok h => .ok ⟨h, none⟩
  | .indefinido => .indefinido
  | .sinCombustible => .sinCombustible

/-- The destructor `ABB::~ABB` (line 45) over the free store: the store it leaves. -/
def ABB.destruir (f : Nat) (a : ABB) : Resultado Monticulo := liberar f a.mont a.raiz

/-- The insertion loop of `ejecutarEjercicio` (lines 122-124) over the free store. -/
def insertarTodos (f : Nat) : ABB → List Int → Resultado ABB
  | a, [] => .ok a
  | a, x :: xs =>
    match a.insertar f x with
    | .ok a1 => insertarTodos f a1 xs
    | .indefinido => .indefinido
    | .sinCombustible => .sinCombustible

/-- A tree whose nodes carry their addresses: the layout of a tree in the free store. -/
inductive ArbolDir where
  | nullptr : ArbolDir
  | mk (dir : Nat) (dato : Int) (izq : ArbolDir) (der : ArbolDir) : ArbolDir
  deriving DecidableEq, Repr

/-- The pointer to the root of a layout. -/
def ArbolDir.ptr : ArbolDir → Option Nat
  | .nullptr => none
  | .mk dir _ _ _ => some dir

/-- The tree a layout lays out. -/
def ArbolDir.arbol : ArbolDir → Nodo
  | .nullptr => .nullptr
  | .mk _ dato izq der => .mk dato izq.arbol der.arbol

/-- The addresses of a layout, children before their parent, left before right. -/
def ArbolDir.dirs : ArbolDir → List Nat
  | .nullptr => []
  | .mk dir _ izq der => izq.dirs ++ der.dirs ++ [dir]

/-- The store holds, at the addresses of the layout, live objects with the keys
and the child pointers of the layout. -/
def Representa (c : Nat → Celda) : ArbolDir → Prop
  | .nullptr => True
  | .mk dir dato izq der => c dir = .viva dato izq.ptr der.ptr ∧ Representa c izq ∧ Representa c der

/-- The layout after an insertion whose new node is put at the address `n`. -/
def ArbolDir.insertar (n : Nat) : ArbolDir → Int → ArbolDir
  | .nullptr, v => .mk n v .nullptr .nullptr
  | .mk dir dato izq der, v =>
    if v < dato then .mk dir dato (ArbolDir.insertar n izq v) der
    else .mk dir dato izq (ArbolDir.insertar n der v)

end Memoria

/-! ## Traversals and the output stream -/

theorem preordenRec_out (t : Nodo) (out : List Int) :
    preordenRec t out = out ++ preordenRec t [] := by
  induction t generalizing out with
  | nullptr => simp [preordenRec]
  | mk dato izq der ihi ihd =>
    simp only [preordenRec]
    rw [ihd (preordenRec izq (out ++ [dato])), ihi (out ++ [dato]),
      ihd (preordenRec izq ([] ++ [dato])), ihi ([] ++ [dato])]
    simp

theorem inordenRec_out (t : Nodo) (out : List Int) :
    inordenRec t out = out ++ inordenRec t [] := by
  induction t generalizing out with
  | nullptr => simp [inordenRec]
  | mk dato izq der ihi ihd =>
    simp only [inordenRec]
    rw [ihd (inordenRec izq out ++ [dato]), ihi out, ihd (inordenRec izq [] ++ [dato])]
    simp

theorem postordenRec_out (t : Nodo) (out : List Int) :
    postordenRec t out = out ++ postordenRec t [] := by
  induction t generalizing out with
  | nullptr => simp [postordenRec]
  | mk dato izq der ihi ihd =>
    simp only [postordenRec]
    rw [ihd (postordenRec izq out), ihi out, ihd (postordenRec izq [])]
    simp

theorem preordenRec_mk (k : Int) (L R : Nodo) :
    preordenRec (.mk k L R) [] = k :: (preordenRec L [] ++ preordenRec R []) := by
  simp only [preordenRec]
  rw [preordenRec_out R, preordenRec_out L]
  simp

theorem inordenRec_mk (k : Int) (L R : Nodo) :
    inordenRec (.mk k L R) [] = inordenRec L [] ++ k :: inordenRec R [] := by
  simp only [inordenRec]
  rw [inordenRec_out R]
  simp

theorem postordenRec_mk (k : Int) (L R : Nodo) :
    postordenRec (.mk k L R) [] = postordenRec L [] ++ (postordenRec R [] ++ [k]) := by
  simp only [postordenRec]
  rw [postordenRec_out R]
  simp

/-! ## Insertion and the invariant -/

theorem Todos_insertarRec (p : Int → Prop) (t : Nodo) (v : Int) (hv : p v)
    (h : Todos p t) : Todos p (insertarRec t v) := by
  induction t with
  | nullptr => simp [insertarRec, Todos, hv]
  | mk dato izq der ihi ihd =>
    obtain ⟨h1, h2, h3⟩ := h
    by_cases hlt : v < dato
    · simp only [insertarRec, if_pos hlt]
      exact ⟨h1, ihi h2, h3⟩
    · simp only [insertarRec, if_neg hlt]
      exact ⟨h1, h2, ihd h3⟩

theorem esABB_insertarRec (t : Nodo) (v : Int) (h : esABB t) : esABB (insertarRec t v) := by
  induction t with
  | nullptr => simp [insertarRec, esABB, Todos]
  | mk dato izq der ihi ihd =>
    obtain ⟨h1, h2, h3, h4⟩ := h
    by_cases hlt : v < dato
    · simp only [insertarRec, if_pos hlt]
      exact ⟨Todos_insertarRec _ izq v hlt h1, h2, ihi h3, h4⟩
    · simp only [insertarRec, if_neg hlt]
      exact ⟨h1, Todos_insertarRec _ der v (not_lt.mp hlt) h2, h3, ihd h4⟩

theorem insertarTodos_snoc (a : ABB) (xs : List Int) (x : Int) :
    insertarTodos a (xs ++ [x]) = (insertarTodos a xs).insertar x := by
  simp [insertarTodos, List.foldl_append]

theorem esABB_insertarTodos (a : ABB) (xs : List Int) (h : esABB a.raiz) :
    esABB (insertarTodos a xs).raiz := by
  induction xs using List.reverseRecOn with
  | nil => simpa [insertarTodos] using h
  | append_singleton xs x ih =>
    rw [insertarTodos_snoc]
    exact esABB_insertarRec _ x ih

/-! ## Traversals and the stored keys -/

theorem forall_mem_inordenRec_of_Todos (p : Int → Prop) (t : Nodo) (h : Todos p t) :
    ∀ x ∈ inordenRec t [], p x := by
  induction t with
  | nullptr => simp [inordenRec]
  | mk dato izq der ihi ihd =>
    obtain ⟨h1, h2, h3⟩ := h
    intro x hx
    rw [inordenRec_mk, List.mem_append, List.mem_cons] at hx
    rcases hx with hx | hx | hx
    · exact ihi h2 x hx
    · exact hx ▸ h1
    · exact ihd h3 x hx

theorem sorted_inordenRec_of_esABB (t : Nodo) (h : esABB t) :
    List.Sorted (fun a b : Int => a ≤ b) (inordenRec t []) := by
  induction t with
  | nullptr => simp [inordenRec]
  | mk dato izq der ihi ihd =>
    obtain ⟨h1, h2, h3, h4⟩ := h
    have hl := forall_mem_inordenRec_of_Todos _ izq h1
    have hr := forall_mem_inordenRec_of_Todos _ der h2
    rw [inordenRec_mk]
    unfold List.Sorted
    rw [List.pairwise_append]
    refine ⟨ihi h3, List.pairwise_cons.mpr ⟨fun b hb => hr b hb, ihd h4⟩, ?_⟩
    intro a ha b hb
    rcases List.mem_cons.mp hb with hb | hb
    · exact hb ▸ le_of_lt (hl a ha)
    · exact le_trans (le_of_lt (hl a ha)) (hr b hb)

theorem count_preordenRec_insertarRec (a : Int) (t : Nodo) (v : Int) :
    (preordenRec (insertarRec t v) []).count a
      = (preordenRec t []).count a + if v = a then 1 else 0 := by
  induction t with
  | nullptr => simp [insertarRec, preordenRec, List.count_cons]
  | mk dato izq der ihi ihd =>
    by_cases hlt : v < dato
    · simp only [insertarRec, if_pos hlt, preordenRec_mk, List.count_cons, List.count_append, ihi]
      omega
    · simp only [insertarRec, if_neg hlt, preordenRec_mk, List.count_cons, List.count_append, ihd]
      omega

theorem count_inordenRec_insertarRec (a : Int) (t : Nodo) (v : Int) :
    (inordenRec (insertarRec t v) []).count a
      = (inordenRec t []).count a + if v = a then 1 else 0 := by
  induction t with
  | nullptr => simp [insertarRec, inordenRec, List.count_cons]
  | mk dato izq der ihi ihd =>
    by_cases hlt : v < dato
    · simp only [insertarRec, if_pos hlt, inordenRec_mk, List.count_cons, List.count_append, ihi]
      omega
    · simp only [insertarRec, if_neg hlt, inordenRec_mk, List.count_cons, List.count_append, ihd]
      omega

theorem count_postordenRec_insertarRec (a : Int) (t : Nodo) (v : Int) :
    (postordenRec (insertarRec t v) []).count a
      = (postordenRec t []).count a + if v = a then 1 else 0 := by
  induction t with
  | nullptr => simp [insertarRec, postordenRec, List.count_cons]
  | mk dato izq der ihi ihd =>
    by_cases hlt : v < dato
    · simp only [insertarRec, if_pos hlt, postordenRec_mk, List.count_cons, List.count_append,
        List.count_nil, ihi]
      omega
    · simp only [insertarRec, if_neg hlt, postordenRec_mk, List.count_cons, List.count_append,
        List.count_nil, ihd]
      omega

theorem perm_preordenRec_insertarRec (t : Nodo) (v : Int) :
    (preordenRec (insertarRec t v) []).Perm (v :: preordenRec t []) := by
  rw [List.perm_iff_count]
  intro a
  rw [count_preordenRec_insertarRec, List.count_cons]
  simp

theorem perm_inordenRec_insertarRec (t : Nodo) (v : Int) :
    (inordenRec (insertarRec t v) []).Perm (v :: inordenRec t []) := by
  rw [List.perm_iff_count]
  intro a
  rw [count_inordenRec_insertarRec, List.count_cons]
  simp

theorem perm_postordenRec_insertarRec (t : Nodo) (v : Int) :
    (postordenRec (insertarRec t v) []).Perm (v :: postordenRec t []) := by
  rw [List.perm_iff_count]
  intro a
  rw [count_postordenRec_insertarRec, List.count_cons]
  simp

/-- Each traversal of the tree built from `a` by the insertion loop is a
permutation of the traversal of `a` followed by the inserted keys. -/
theorem perm_recorridos_insertarTodos (a : ABB) (xs : List Int) :
    (insertarTodos a xs).preorden.Perm (a.preorden ++ xs) ∧
    (insertarTodos a xs).inorden.Perm (a.inorden ++ xs) ∧
    (insertarTodos a xs).postorden.Perm (a.postorden ++ xs) := by
  induction xs using List.reverseRecOn with
  | nil => simp [insertarTodos]
  | append_singleton xs x ih =>
    obtain ⟨h1, h2, h3⟩ := ih
    rw [insertarTodos_snoc]
    have e : ∀ l : List Int, (l ++ (xs ++ [x])).Perm (x :: (l ++ xs)) := by
      intro l
      rw [← List.append_assoc]
      exact List.perm_append_singleton x (l ++ xs)
    refine ⟨?_, ?_, ?_⟩
    · exact ((perm_preordenRec_insertarRec _ x).trans (h1.cons x)).trans (e _).symm
    · exact ((perm_inordenRec_insertarRec _ x).trans (h2.cons x)).trans (e _).symm
    · exact ((perm_postordenRec_insertarRec _ x).trans (h3.cons x)).trans (e _).symm

/-! ## Sequences of public calls -/

theorem ejecutar_snoc (a : ABB) (ops : List Op) (op : Op) :
    a.ejecutar (ops ++ [op]) = (a.ejecutar ops).aplicar op := by
  simp [ABB.ejecutar, List.foldl_append]

theorem insercionesDesdeLimpiar_snoc_insertar (ops : List Op) (v : Int) :
    insercionesDesdeLimpiar (ops ++ [Op.insertar v]) = insercionesDesdeLimpiar ops + 1 := by
  simp [insercionesDesdeLimpiar, List.takeWhile_cons, Op.esInsertar]

theorem insercionesDesdeLimpiar_snoc_limpiar (ops : List Op) :
    insercionesDesdeLimpiar (ops ++ [Op.limpiar]) = 0 := by
  simp [insercionesDesdeLimpiar, List.takeWhile_cons, Op.esInsertar]

/-! ## Non-decreasing insertion sequences -/

theorem insertarRec_cadenaDer (xs : List Int) (x : Int) (h : ∀ y ∈ xs, y ≤ x) :
    insertarRec (cadenaDer xs) x = cadenaDer (xs ++ [x]) := by
  induction xs with
  | nil => simp [cadenaDer, insertarRec]
  | cons y ys ih =>
    have hy : ¬ x < y := not_lt.mpr (h y (List.mem_cons_self y ys))
    have e : insertarRec (cadenaDer (y :: ys)) x = .mk y .nullptr (insertarRec (cadenaDer ys) x) := by
      simp only [cadenaDer, insertarRec, if_neg hy]
    rw [e, ih (fun z hz => h z (List.mem_cons_of_mem y hz))]
    rfl

theorem insertarTodos_sorted (xs : List Int) (h : List.Sorted (fun a b : Int => a ≤ b) xs) :
    (insertarTodos ABB.nuevo xs).raiz = cadenaDer xs := by
  induction xs using List.reverseRecOn with
  | nil => simp [insertarTodos, ABB.nuevo, cadenaDer]
  | append_singleton xs x ih =>
    unfold List.Sorted at h
    rw [List.pairwise_append] at h
    obtain ⟨h1, -, h3⟩ := h
    rw [insertarTodos_snoc]
    simp only [ABB.insertar]
    rw [ih h1]
    exact insertarRec_cadenaDer xs x (fun y hy => h3 y hy x (List.mem_singleton_self x))

theorem preordenRec_cadenaDer (xs : List Int) : preordenRec (cadenaDer xs) [] = xs := by
  induction xs with
  | nil => simp [cadenaDer, preordenRec]
  | cons y ys ih =>
    show preordenRec (.mk y .nullptr (cadenaDer ys)) [] = y :: ys
    rw [preordenRec_mk, ih]
    rfl

theorem inordenRec_cadenaDer (xs : List Int) : inordenRec (cadenaDer xs) [] = xs := by
  induction xs with
  | nil => simp [cadenaDer, inordenRec]
  | cons y ys ih =>
    show inordenRec (.mk y .nullptr (cadenaDer ys)) [] = y :: ys
    rw [inordenRec_mk, ih]
    rfl

theorem postordenRec_cadenaDer (xs : List Int) :
    postordenRec (cadenaDer xs) [] = xs.reverse := by
  induction xs with
  | nil => simp [cadenaDer, postordenRec]
  | cons y ys ih =>
    show postordenRec (.mk y .nullptr (cadenaDer ys)) [] = (y :: ys).reverse
    rw [postordenRec_mk, ih, List.reverse_cons]
    rfl

/-! ## Claims -/

/-- C1: insertion preserves the BST invariant (left keys strictly less, right
keys greater or equal), and hence the tree built from the empty tree by any
sequence of insertions satisfies the invariant after each insertion, that is,
after every initial segment of the sequence. -/
theorem insertar_preserva_esABB :
    (∀ (t : Nodo) (v : Int), esABB t → esABB (insertarRec t v)) ∧
    (∀ (xs : List Int) (n : Nat), esABB (insertarTodos ABB.nuevo (xs.take n)).raiz) :=
  ⟨esABB_insertarRec, fun xs n => esABB_insertarTodos ABB.nuevo (xs.take n) (by simp [ABB.nuevo, esABB])⟩

/-- Witness for C1 on the tree of the second exercise and on the key 5. -/
theorem insertar_preserva_esABB_witness :
    esABB (.mk 4 (.mk 2 .nullptr .nullptr) (.mk 87 .nullptr .nullptr)) ∧
    esABB (insertarRec (.mk 4 (.mk 2 .nullptr .nullptr) (.mk 87 .nullptr .nullptr)) 5) ∧
    esABB (insertarTodos ABB.nuevo ([1, 4, 87, 2, 6, 9, 0].take 3)).raiz :=
  ⟨by decide, insertar_preserva_esABB.1 _ 5 (by decide), insertar_preserva_esABB.2 _ 3⟩

/-- C2: for every sequence of keys (repeats and the empty sequence included)
inserted one by one into an empty tree, the keys emitted by `inorden` are
non-decreasing. -/
theorem inorden_no_decreciente (xs : List Int) :
    List.Sorted (fun a b : Int => a ≤ b) (insertarTodos ABB.nuevo xs).inorden :=
  sorted_inordenRec_of_esABB _ (esABB_insertarTodos ABB.nuevo xs (by simp [ABB.nuevo, esABB]))

/-- C3: for every sequence `xs` of keys inserted in order into an empty tree,
each of the sequences emitted by `preorden`, `inorden` and `postorden` is a
permutation of `xs`. -/
theorem recorridos_perm (xs : List Int) :
    (insertarTodos ABB.nuevo xs).preorden.Perm xs ∧
    (insertarTodos ABB.nuevo xs).inorden.Perm xs ∧
    (insertarTodos ABB.nuevo xs).postorden.Perm xs := by
  simpa [ABB.nuevo, ABB.preorden, ABB.inorden, ABB.postorden, preordenRec, inordenRec,
    postordenRec] using perm_recorridos_insertarTodos ABB.nuevo xs

/-- C4: for every finite sequence of `insertar` and `limpiar` calls applied to a
freshly constructed `ABB`, the number of keys emitted by each of `preorden`,
`inorden` and `postorden` equals the number of `insertar` calls made after the
last `limpiar` (all of them if `limpiar` was never called). -/
theorem longitud_recorridos (ops : List Op) :
    (ABB.nuevo.ejecutar ops).preorden.length = insercionesDesdeLimpiar ops ∧
    (ABB.nuevo.ejecutar ops).inorden.length = insercionesDesdeLimpiar ops ∧
    (ABB.nuevo.ejecutar ops).postorden.length = insercionesDesdeLimpiar ops := by
  induction ops using List.reverseRecOn with
  | nil => decide
  | append_singleton ops op ih =>
    obtain ⟨h1, h2, h3⟩ := ih
    rw [ejecutar_snoc]
    cases op with
    | insertar v =>
      rw [insercionesDesdeLimpiar_snoc_insertar]
      simp only [ABB.aplicar, ABB.insertar, ABB.preorden, ABB.inorden, ABB.postorden]
      rw [(perm_preordenRec_insertarRec _ v).length_eq, (perm_inordenRec_insertarRec _ v).length_eq,
        (perm_postordenRec_insertarRec _ v).length_eq]
      simp only [List.length_cons]
      exact ⟨congrArg (· + 1) h1, congrArg (· + 1) h2, congrArg (· + 1) h3⟩
    | limpiar =>
      rw [insercionesDesdeLimpiar_snoc_limpiar]
      exact ⟨rfl, rfl, rfl⟩

/-- C5: on the empty tree each of the three traversals emits the empty
sequence, and on a node with key `k`, left subtree `L` and right subtree `R`,
`preorden` emits `[k] ++ pre(L) ++ pre(R)`, `inorden` emits
`in(L) ++ [k] ++ in(R)` and `postorden` emits `post(L) ++ post(R) ++ [k]`. -/
theorem recorridos_definicion :
    (ABB.mk .nullptr).preorden = [] ∧ (ABB.mk .nullptr).inorden = [] ∧
    (ABB.mk .nullptr).postorden = [] ∧
    ∀ (k : Int) (L R : Nodo),
      (ABB.mk (.mk k L R)).preorden = [k] ++ (ABB.mk L).preorden ++ (ABB.mk R).preorden ∧
      (ABB.mk (.mk k L R)).inorden = (ABB.mk L).inorden ++ [k] ++ (ABB.mk R).inorden ∧
      (ABB.mk (.mk k L R)).postorden = (ABB.mk L).postorden ++ (ABB.mk R).postorden ++ [k] := by
  refine ⟨rfl, rfl, rfl, fun k L R => ⟨?_, ?_, ?_⟩⟩
  · simp [ABB.preorden, preordenRec_mk]
  · simp [ABB.inorden, inordenRec_mk]
  · simp [ABB.postorden, postordenRec_mk]

/-- C6: inserting `v` into the empty tree yields a single node with key `v` and
no children; inserting `v` into a node with key `k` and subtrees `L`, `R` keeps
the key `k` and, if `v < k`, replaces `L` by the insertion into `L` with `R`
unchanged, and otherwise (`k ≤ v`) replaces `R` by the insertion into `R` with
`L` unchanged. -/
theorem insertarRec_descenso :
    (∀ v : Int, insertarRec .nullptr v = .mk v .nullptr .nullptr) ∧
    (∀ (k : Int) (L R : Nodo) (v : Int), v < k →
      insertarRec (.mk k L R) v = .mk k (insertarRec L v) R) ∧
    (∀ (k : Int) (L R : Nodo) (v : Int), k ≤ v →
      insertarRec (.mk k L R) v = .mk k L (insertarRec R v)) := by
  refine ⟨fun v => rfl, fun k L R v h => ?_, fun k L R v h => ?_⟩
  · simp only [insertarRec, if_pos h]
  · simp only [insertarRec, if_neg (not_lt.mpr h)]

/-- Witness for C6: the keys 2 and 4 inserted below a root holding 4. -/
theorem insertarRec_descenso_witness :
    insertarRec (.mk 4 .nullptr (.mk 87 .nullptr .nullptr)) 2
      = .mk 4 (insertarRec .nullptr 2) (.mk 87 .nullptr .nullptr) ∧
    insertarRec (.mk 4 .nullptr (.mk 87 .nullptr .nullptr)) 4
      = .mk 4 .nullptr (insertarRec (.mk 87 .nullptr .nullptr) 4) :=
  ⟨insertarRec_descenso.2.1 4 _ _ 2 (by decide), insertarRec_descenso.2.2 4 _ _ 4 (by decide)⟩

/-- C7: `limpiar` yields the empty tree from every state; `limpiar` twice gives
the same state as `limpiar` once, namely that of a freshly constructed `ABB`,
on which all three traversals emit the empty sequence; and inserting any
sequence of keys after `limpiar` produces exactly the tree that inserting the
same sequence into a fresh `ABB` produces. -/
theorem limpiar_idempotente :
    (∀ a : ABB, a.limpiar.raiz = .nullptr) ∧
    (∀ a : ABB, a.limpiar.limpiar = a.limpiar ∧ a.limpiar.limpiar = ABB.nuevo) ∧
    (ABB.nuevo.preorden = [] ∧ ABB.nuevo.inorden = [] ∧ ABB.nuevo.postorden = []) ∧
    (∀ (a : ABB) (xs : List Int), insertarTodos a.limpiar xs = insertarTodos ABB.nuevo xs) :=
  ⟨fun _ => rfl, fun _ => ⟨rfl, rfl⟩, ⟨rfl, rfl, rfl⟩, fun _ _ => rfl⟩

/-- C8: for every non-decreasing sequence `xs` of keys inserted in order into an
empty tree, `preorden` emits `xs`, `inorden` emits `xs` and `postorden` emits
the reverse of `xs`; in particular the first exercise, the keys 1 to 9, gives
preorder and inorder 1 to 9 and postorder 9 down to 1. -/
theorem cadena_no_decreciente :
    (∀ xs : List Int, List.Sorted (fun a b : Int => a ≤ b) xs →
      ejecutarEjercicio xs = (xs, xs, xs.reverse)) ∧
    ejecutarEjercicio [1, 2, 3, 4, 5, 6, 7, 8, 9]
      = ([1, 2, 3, 4, 5, 6, 7, 8, 9], [1, 2, 3, 4, 5, 6, 7, 8, 9], [9, 8, 7, 6, 5, 4, 3, 2, 1]) := by
  have key : ∀ xs : List Int, List.Sorted (fun a b : Int => a ≤ b) xs →
      ejecutarEjercicio xs = (xs, xs, xs.reverse) := by
    intro xs h
    simp only [ejecutarEjercicio, ABB.preorden, ABB.inorden, ABB.postorden,
      insertarTodos_sorted xs h, preordenRec_cadenaDer, inordenRec_cadenaDer,
      postordenRec_cadenaDer]
  exact ⟨key, key _ (by decide)⟩

/-- Witness for C8: a non-decreasing sequence with a repeated key. -/
theorem cadena_no_decreciente_witness :
    List.Sorted (fun a b : Int => a ≤ b) [-3, 0, 0, 7] ∧
    ejecutarEjercicio [-3, 0, 0, 7] = ([-3, 0, 0, 7], [-3, 0, 0, 7], [7, 0, 0, -3]) :=
  ⟨by decide, cadena_no_decreciente.1 [-3, 0, 0, 7] (by decide)⟩

/-- C9: the second exercise, the keys 1, 4, 87, 2, 6, 9, 0 inserted in that
order into an empty tree, gives inorder 0, 1, 2, 4, 6, 9, 87 and preorder
1, 0, 4, 2, 87, 6, 9. -/
theorem escenario_mixto :
    (insertarTodos ABB.nuevo [1, 4, 87, 2, 6, 9, 0]).inorden = [0, 1, 2, 4, 6, 9, 87] ∧
    (insertarTodos ABB.nuevo [1, 4, 87, 2, 6, 9, 0]).preorden = [1, 0, 4, 2, 87, 6, 9] := by
  decide

/-- C10: for every key `k`, inserting `k` and then `k` again into an empty tree
yields a root with key `k` whose left child is absent and whose right child is
a leaf with key `k`, so that `inorden` and `preorden` both emit `[k, k]`. -/
theorem duplicado_a_la_derecha (k : Int) :
    (insertarTodos ABB.nuevo [k, k]).raiz = .mk k .nullptr (.mk k .nullptr .nullptr) ∧
    (insertarTodos ABB.nuevo [k, k]).inorden = [k, k] ∧
    (insertarTodos ABB.nuevo [k, k]).preorden = [k, k] := by
  have h : (insertarTodos ABB.nuevo [k, k]).raiz = .mk k .nullptr (.mk k .nullptr .nullptr) := by
    simp [insertarTodos, ABB.nuevo, ABB.insertar, insertarRec]
  refine ⟨h, ?_, ?_⟩
  · simp [ABB.inorden, h, inordenRec]
  · simp [ABB.preorden, h, preordenRec]

/-! ## Shape of the tree of an insertion sequence -/

theorem nodos_insertarRec (t : Nodo) (v : Int) : nodos (insertarRec t v) = nodos t + 1 := by
  induction t with
  | nullptr => simp [insertarRec, nodos]
  | mk dato izq der ihi ihd =>
    by_cases hlt : v < dato
    · simp only [insertarRec, if_pos hlt, nodos, ihi]
      omega
    · simp only [insertarRec, if_neg hlt, nodos, ihd]
      omega

theorem nodos_insertarTodos (a : ABB) (xs : List Int) :
    nodos (insertarTodos a xs).raiz = nodos a.raiz + xs.length := by
  induction xs using List.reverseRecOn with
  | nil => simp [insertarTodos]
  | append_singleton xs x ih =>
    rw [insertarTodos_snoc]
    simp only [ABB.insertar, nodos_insertarRec, ih, List.length_append, List.length_singleton]
    omega

theorem estado_insertar (a : ABB) (v : Int) : (a.insertar v).estado = .NON_EMPTY := by
  obtain ⟨r⟩ := a
  cases r with
  | nullptr => rfl
  | mk dato izq der =>
    by_cases hlt : v < dato <;> simp [ABB.insertar, ABB.estado, insertarRec, hlt]

theorem estado_insertarTodos (a : ABB) (xs : List Int) (h : a.estado = .NON_EMPTY) :
    (insertarTodos a xs).estado = .NON_EMPTY := by
  induction xs using List.reverseRecOn with
  | nil => simpa [insertarTodos] using h
  | append_singleton xs x _ =>
    rw [insertarTodos_snoc]
    exact estado_insertar _ x

theorem sinHijoIzq_cadenaDer (xs : List Int) : sinHijoIzq (cadenaDer xs) = true := by
  induction xs with
  | nil => rfl
  | cons y ys ih => simp [cadenaDer, sinHijoIzq, ih]

theorem altura_cadenaDer (xs : List Int) : altura (cadenaDer xs) = xs.length := by
  induction xs with
  | nil => rfl
  | cons y ys ih =>
    simp only [cadenaDer, altura, ih, List.length_cons]
    omega

/-- C11: a freshly constructed `ABB` is EMPTY; from every state and for every
key the state after `insertar` is NON-EMPTY; from every state the state after
`limpiar` is EMPTY; and no sequence of `insertar` calls leads from a NON-EMPTY
state to EMPTY. -/
theorem maquina_de_dos_estados :
    ABB.nuevo.estado = .EMPTY ∧ ABB.nuevo.raiz = .nullptr ∧
    (∀ (a : ABB) (v : Int), (a.insertar v).estado = .NON_EMPTY ∧ (a.insertar v).raiz ≠ .nullptr) ∧
    (∀ a : ABB, a.limpiar.estado = .EMPTY ∧ a.limpiar.raiz = .nullptr) ∧
    (∀ (a : ABB) (xs : List Int), a.estado = .NON_EMPTY →
      (insertarTodos a xs).estado ≠ .EMPTY) := by
  refine ⟨rfl, rfl, fun a v => ⟨estado_insertar a v, ?_⟩, fun _ => ⟨rfl, rfl⟩, ?_⟩
  · intro h
    have e := estado_insertar a v
    simp [ABB.estado, h] at e
  · intro a xs h
    rw [estado_insertarTodos a xs h]
    decide

/-- Witness for C11: three more keys inserted into a tree holding one key. -/
theorem maquina_de_dos_estados_witness :
    (ABB.mk (.mk 1 .nullptr .nullptr)).estado = .NON_EMPTY ∧
    (insertarTodos (ABB.mk (.mk 1 .nullptr .nullptr)) [4, 87, 2]).estado ≠ .EMPTY :=
  ⟨by decide, maquina_de_dos_estados.2.2.2.2 _ [4, 87, 2] (by decide)⟩

/-- C12: for every non-decreasing sequence of `n` keys inserted in order into an
empty tree, no node of the resulting tree has a left child, the tree has `n`
nodes and its height is `n`. -/
theorem cadena_degenerada_no_decreciente (xs : List Int)
    (h : List.Sorted (fun a b : Int => a ≤ b) xs) :
    sinHijoIzq (insertarTodos ABB.nuevo xs).raiz = true ∧
    nodos (insertarTodos ABB.nuevo xs).raiz = xs.length ∧
    altura (insertarTodos ABB.nuevo xs).raiz = xs.length := by
  refine ⟨?_, ?_, ?_⟩
  · rw [insertarTodos_sorted xs h]
    exact sinHijoIzq_cadenaDer xs
  · simpa [ABB.nuevo, nodos] using nodos_insertarTodos ABB.nuevo xs
  · rw [insertarTodos_sorted xs h]
    exact altura_cadenaDer xs

/-- Witness for C12: the keys of the first exercise. -/
theorem cadena_degenerada_no_decreciente_witness :
    List.Sorted (fun a b : Int => a ≤ b) [1, 2, 3, 4, 5, 6, 7, 8, 9] ∧
    sinHijoIzq (insertarTodos ABB.nuevo [1, 2, 3, 4, 5, 6, 7, 8, 9]).raiz = true ∧
    nodos (insertarTodos ABB.nuevo [1, 2, 3, 4, 5, 6, 7, 8, 9]).raiz = 9 ∧
    altura (insertarTodos ABB.nuevo [1, 2, 3, 4, 5, 6, 7, 8, 9]).raiz = 9 :=
  ⟨by decide, cadena_degenerada_no_decreciente [1, 2, 3, 4, 5, 6, 7, 8, 9] (by decide)⟩

/-! ## Insertion below a fixed root -/

theorem insertarTodos_cons (a : ABB) (x : Int) (xs : List Int) :
    insertarTodos a (x :: xs) = insertarTodos (a.insertar x) xs := rfl

/-- The keys inserted below a node split between its two subtrees: the keys
strictly less than the node's key build the left subtree, the others the
right subtree, each in the order of insertion. -/
theorem insertarTodos_mk (k : Int) (L R : Nodo) (xs : List Int) :
    (insertarTodos ⟨.mk k L R⟩ xs).raiz =
      .mk k (insertarTodos ⟨L⟩ (xs.filter (fun x => decide (x < k)))).raiz
        (insertarTodos ⟨R⟩ (xs.filter (fun x => decide (¬ x < k)))).raiz := by
  induction xs generalizing L R with
  | nil => simp [insertarTodos]
  | cons x xs ih =>
    by_cases hlt : x < k
    · have e : (ABB.mk (.mk k L R)).insertar x = ⟨.mk k (insertarRec L x) R⟩ := by
        simp [ABB.insertar, insertarRec, hlt]
      rw [insertarTodos_cons, e, ih]
      simp [List.filter_cons, hlt, insertarTodos_cons, ABB.insertar]
    · have e : (ABB.mk (.mk k L R)).insertar x = ⟨.mk k L (insertarRec R x)⟩ := by
        simp [ABB.insertar, insertarRec, hlt]
      rw [insertarTodos_cons, e, ih]
      simp [List.filter_cons, hlt, not_lt.mp hlt, insertarTodos_cons, ABB.insertar]

theorem insertarTodos_nuevo_cons (x : Int) (xs : List Int) :
    (insertarTodos ABB.nuevo (x :: xs)).raiz =
      .mk x (insertarTodos ABB.nuevo (xs.filter (fun y => decide (y < x)))).raiz
        (insertarTodos ABB.nuevo (xs.filter (fun y => decide (¬ y < x)))).raiz := by
  have e : ABB.nuevo.insertar x = ⟨.mk x .nullptr .nullptr⟩ := rfl
  rw [insertarTodos_cons, e, insertarTodos_mk]
  rfl

theorem insertarTodos_nuevo_eq_nullptr (xs : List Int) :
    (insertarTodos ABB.nuevo xs).raiz = .nullptr ↔ xs = [] := by
  constructor
  · intro h
    have e := nodos_insertarTodos ABB.nuevo xs
    rw [h] at e
    simp only [nodos, ABB.nuevo] at e
    exact List.length_eq_zero.mp (by omega)
  · intro h
    rw [h]
    rfl

theorem altura_eq_nodos_of_aLoSumoUnHijo (t : Nodo) (h : aLoSumoUnHijo t = true) :
    altura t = nodos t := by
  induction t with
  | nullptr => rfl
  | mk dato izq der ihi ihd =>
    simp only [aLoSumoUnHijo, Bool.and_eq_true, Bool.or_eq_true, decide_eq_true_eq] at h
    obtain ⟨⟨h1, h2⟩, h3⟩ := h
    rcases h1 with h1 | h1
    · subst h1
      simp only [altura, nodos, ihd h3]
      omega
    · subst h1
      simp only [altura, nodos, ihi h2]
      omega

/-! ## Non-increasing insertion sequences -/

theorem aLoSumoUnHijo_insertarTodos_iff (xs : List Int)
    (h : List.Sorted (fun a b : Int => a ≥ b) xs) :
    aLoSumoUnHijo (insertarTodos ABB.nuevo xs).raiz = true ↔
      ∀ a ∈ xs, 1 < xs.count a → ∀ b ∈ xs, a ≤ b := by
  induction xs with
  | nil => simp [insertarTodos, ABB.nuevo, aLoSumoUnHijo]
  | cons x rest ih =>
    obtain ⟨hx, hrest⟩ := List.pairwise_cons.mp h
    have ih := ih hrest
    rw [insertarTodos_nuevo_cons]
    by_cases h1 : ∀ b ∈ rest, b < x
    · -- every later key is strictly smaller: the root has a left subtree only
      have f1 : rest.filter (fun y => decide (y < x)) = rest :=
        List.filter_eq_self.mpr (by simpa using h1)
      have f2 : rest.filter (fun y => decide (¬ y < x)) = [] :=
        List.filter_eq_nil_iff.mpr (by simpa using h1)
      have hxn : x ∉ rest := fun hm => lt_irrefl x (h1 x hm)
      have e0 : (insertarTodos ABB.nuevo []).raiz = .nullptr := rfl
      rw [f1, f2, e0]
      simp only [aLoSumoUnHijo, decide_True, Bool.or_true, Bool.true_and, Bool.and_true]
      rw [ih]
      constructor
      · intro hc a ha hcount b hb
        have hax : a ≠ x := by
          rintro rfl
          rw [List.count_cons_self, List.count_eq_zero.mpr hxn] at hcount
          omega
        have har : a ∈ rest := (List.mem_cons.mp ha).resolve_left hax
        rw [List.count_cons_of_ne hax] at hcount
        rcases List.mem_cons.mp hb with hb | hb
        · rw [hb]
          exact le_of_lt (h1 a har)
        · exact hc a har hcount b hb
      · intro hc a ha hcount b hb
        have hax : a ≠ x := fun e => hxn (e ▸ ha)
        exact hc a (List.mem_cons_of_mem x ha)
          (by rw [List.count_cons_of_ne hax]; exact hcount) b
          (List.mem_cons_of_mem x hb)
    · -- some later key equals the root key: the root has a right subtree
      have h1e : ∃ b ∈ rest, ¬ b < x := by
        by_contra hne
        exact h1 (fun b hb => by_contra (fun hb2 => hne ⟨b, hb, hb2⟩))
      obtain ⟨c, hc, hcx⟩ := h1e
      have hceq : c = x := le_antisymm (hx c hc) (not_lt.mp hcx)
      have hxm : x ∈ rest := hceq ▸ hc
      have hR : (insertarTodos ABB.nuevo (rest.filter (fun y => decide (¬ y < x)))).raiz
          ≠ .nullptr := by
        intro hn
        have hnil := (insertarTodos_nuevo_eq_nullptr _).mp hn
        have := List.filter_eq_nil_iff.mp hnil x hxm
        simp at this
      have hcount : 1 < (x :: rest).count x := by
        rw [List.count_cons_self]
        have := List.count_pos_iff.mpr hxm
        omega
      by_cases h2 : ∀ b ∈ rest, b = x
      · -- every key equals the root key: a right-only chain
        have f1 : rest.filter (fun y => decide (y < x)) = [] :=
          List.filter_eq_nil_iff.mpr (by
            intro b hb
            simp [h2 b hb])
        have f2 : rest.filter (fun y => decide (¬ y < x)) = rest :=
          List.filter_eq_self.mpr (by
            intro b hb
            simp [h2 b hb])
        have e0 : (insertarTodos ABB.nuevo []).raiz = .nullptr := rfl
        rw [f1, f2, e0]
        simp only [aLoSumoUnHijo, decide_True, Bool.true_or, Bool.true_and]
        rw [ih]
        constructor
        · intro _ a ha _ b hb
          have ea : a = x := by
            rcases List.mem_cons.mp ha with e | e
            · exact e
            · exact h2 a e
          have eb : b = x := by
            rcases List.mem_cons.mp hb with e | e
            · exact e
            · exact h2 b e
          rw [ea, eb]
        · intro _ a ha _ b hb
          rw [h2 a ha, h2 b hb]
      · -- a repeated root key followed by a smaller key: the root has two children
        have h2e : ∃ b ∈ rest, b ≠ x := by
          by_contra hne
          exact h2 (fun b hb => by_contra (fun hb2 => hne ⟨b, hb, hb2⟩))
        obtain ⟨d, hd, hdx⟩ := h2e
        have hdlt : d < x := lt_of_le_of_ne (hx d hd) hdx
        have hL : (insertarTodos ABB.nuevo (rest.filter (fun y => decide (y < x)))).raiz
            ≠ .nullptr := by
          intro hn
          have hnil := (insertarTodos_nuevo_eq_nullptr _).mp hn
          have := List.filter_eq_nil_iff.mp hnil d hd
          simp [hdlt] at this
        constructor
        · intro hch
          simp only [aLoSumoUnHijo, Bool.and_eq_true, Bool.or_eq_true, decide_eq_true_eq] at hch
          rcases hch.1.1 with e | e
          · exact absurd e hL
          · exact absurd e hR
        · intro hcond
          have := hcond x (List.mem_cons_self x rest) hcount d (List.mem_cons_of_mem x hd)
          exact absurd hdlt (not_lt.mpr this)

theorem forall_mem_preordenRec_of_Todos (p : Int → Prop) (t : Nodo) (h : Todos p t) :
    ∀ x ∈ preordenRec t [], p x := by
  induction t with
  | nullptr => simp [preordenRec]
  | mk dato izq der ihi ihd =>
    obtain ⟨h1, h2, h3⟩ := h
    intro x hx
    rw [preordenRec_mk, List.mem_cons, List.mem_append] at hx
    rcases hx with hx | hx | hx
    · exact hx ▸ h1
    · exact ihi h2 x hx
    · exact ihd h3 x hx

theorem insertarTodos_preordenRec (t : Nodo) (h : esABB t) :
    (insertarTodos ABB.nuevo (preordenRec t [])).raiz = t := by
  induction t with
  | nullptr => rfl
  | mk dato izq der ihi ihd =>
    obtain ⟨h1, h2, h3, h4⟩ := h
    have hl := forall_mem_preordenRec_of_Todos _ izq h1
    have hr := forall_mem_preordenRec_of_Todos _ der h2
    have f1 : (preordenRec izq [] ++ preordenRec der []).filter (fun y => decide (y < dato))
        = preordenRec izq [] := by
      rw [List.filter_append, List.filter_eq_self.mpr (by simpa using hl),
        List.filter_eq_nil_iff.mpr (by simpa using hr), List.append_nil]
    have f2 : (preordenRec izq [] ++ preordenRec der []).filter (fun y => decide (¬ y < dato))
        = preordenRec der [] := by
      rw [List.filter_append, List.filter_eq_nil_iff.mpr (by simpa using hl),
        List.filter_eq_self.mpr (by simpa using hr), List.nil_append]
    rw [preordenRec_mk, insertarTodos_nuevo_cons, f1, f2, ihi h3, ihd h4]

/-- C13, as stated, fails: the non-increasing sequence 5, 5, 3 puts the second 5
to the right of the root and the 3 to its left, so the root has two children
and the height is 2, not 3. -/
theorem cadena_degenerada_no_creciente_contraejemplo :
    List.Sorted (fun a b : Int => a ≥ b) [5, 5, 3] ∧
    (insertarTodos ABB.nuevo [5, 5, 3]).raiz
      = .mk 5 (.mk 3 .nullptr .nullptr) (.mk 5 .nullptr .nullptr) ∧
    ¬ (aLoSumoUnHijo (insertarTodos ABB.nuevo [5, 5, 3]).raiz = true ∧
      altura (insertarTodos ABB.nuevo [5, 5, 3]).raiz = [5, 5, 3].length) := by
  decide

/-- C13, amended: for every non-increasing sequence of `n` keys inserted in
order into an empty tree, the resulting tree is a degenerate chain (every node
has at most one child and the height equals the node count `n`) exactly when no
key other than the smallest one occurs more than once in the sequence; in
particular it is a degenerate chain for every strictly decreasing sequence. -/
theorem cadena_degenerada_no_creciente :
    (∀ xs : List Int, List.Sorted (fun a b : Int => a ≥ b) xs →
      ((aLoSumoUnHijo (insertarTodos ABB.nuevo xs).raiz = true ∧
          altura (insertarTodos ABB.nuevo xs).raiz = xs.length) ↔
        ∀ a ∈ xs, 1 < xs.count a → ∀ b ∈ xs, a ≤ b)) ∧
    (∀ xs : List Int, List.Sorted (fun a b : Int => a > b) xs →
      aLoSumoUnHijo (insertarTodos ABB.nuevo xs).raiz = true ∧
        altura (insertarTodos ABB.nuevo xs).raiz = xs.length) := by
  have key : ∀ xs : List Int, List.Sorted (fun a b : Int => a ≥ b) xs →
      ((aLoSumoUnHijo (insertarTodos ABB.nuevo xs).raiz = true ∧
          altura (insertarTodos ABB.nuevo xs).raiz = xs.length) ↔
        ∀ a ∈ xs, 1 < xs.count a → ∀ b ∈ xs, a ≤ b) := by
    intro xs h
    rw [← aLoSumoUnHijo_insertarTodos_iff xs h]
    constructor
    · exact fun hc => hc.1
    · intro hc
      refine ⟨hc, ?_⟩
      rw [altura_eq_nodos_of_aLoSumoUnHijo _ hc]
      simpa [ABB.nuevo, nodos] using nodos_insertarTodos ABB.nuevo xs
  refine ⟨key, fun xs h => ?_⟩
  have hge : List.Sorted (fun a b : Int => a ≥ b) xs := List.Pairwise.imp (fun hab => le_of_lt hab) h
  have hnd : xs.Nodup := List.Pairwise.imp (fun hab => ne_of_gt hab) h
  refine (key xs hge).mpr (fun a _ hcount => ?_)
  have := List.nodup_iff_count_le_one.mp hnd a
  omega

/-- Witness for C13: a non-increasing sequence whose smallest key is repeated,
and a strictly decreasing one. -/
theorem cadena_degenerada_no_creciente_witness :
    List.Sorted (fun a b : Int => a ≥ b) [5, 3, 3] ∧
    (aLoSumoUnHijo (insertarTodos ABB.nuevo [5, 3, 3]).raiz = true ∧
      altura (insertarTodos ABB.nuevo [5, 3, 3]).raiz = 3) ∧
    List.Sorted (fun a b : Int => a > b) [9, 4, 0, -2] ∧
    (aLoSumoUnHijo (insertarTodos ABB.nuevo [9, 4, 0, -2]).raiz = true ∧
      altura (insertarTodos ABB.nuevo [9, 4, 0, -2]).raiz = 4) :=
  ⟨by decide, (cadena_degenerada_no_creciente.1 [5, 3, 3] (by decide)).mpr (by decide),
    by decide, cadena_degenerada_no_creciente.2 [9, 4, 0, -2] (by decide)⟩

/-- C18: for every tree that satisfies the BST invariant, inserting the keys of
its preorder sequence, in that order, into an empty tree produces a tree
identical in shape and keys; in particular this holds of every tree built by
insertions. -/
theorem preorden_reconstruye :
    (∀ t : Nodo, esABB t → (insertarTodos ABB.nuevo (ABB.mk t).preorden).raiz = t) ∧
    (∀ xs : List Int,
      insertarTodos ABB.nuevo (insertarTodos ABB.nuevo xs).preorden = insertarTodos ABB.nuevo xs) := by
  refine ⟨insertarTodos_preordenRec, fun xs => ?_⟩
  have h := insertarTodos_preordenRec (insertarTodos ABB.nuevo xs).raiz
    (esABB_insertarTodos ABB.nuevo xs (by simp [ABB.nuevo, esABB]))
  cases hres : insertarTodos ABB.nuevo (insertarTodos ABB.nuevo xs).preorden with
  | mk r =>
    simp only [ABB.preorden] at hres
    rw [hres] at h
    simp only at h
    rw [h]

/-- Witness for C18: the tree of the second exercise. -/
theorem preorden_reconstruye_witness :
    esABB (insertarTodos ABB.nuevo [1, 4, 87, 2, 6, 9, 0]).raiz ∧
    (insertarTodos ABB.nuevo (ABB.mk (insertarTodos ABB.nuevo [1, 4, 87, 2, 6, 9, 0]).raiz).preorden).raiz
      = (insertarTodos ABB.nuevo [1, 4, 87, 2, 6, 9, 0]).raiz :=
  ⟨by decide, preorden_reconstruye.1 _ (by decide)⟩

/-- C19: for every non-empty sequence of keys `x0, x1, ..., xn` inserted in
order into an empty tree, the root holds `x0`, the first key emitted by
`preorden` is `x0` and the last key emitted by `postorden` is `x0`. -/
theorem raiz_no_cambia (x0 : Int) (xs : List Int) :
    (∃ L R : Nodo, (insertarTodos ABB.nuevo (x0 :: xs)).raiz = .mk x0 L R) ∧
    (insertarTodos ABB.nuevo (x0 :: xs)).preorden.head? = some x0 ∧
    (insertarTodos ABB.nuevo (x0 :: xs)).postorden.getLast? = some x0 := by
  refine ⟨⟨_, _, insertarTodos_nuevo_cons x0 xs⟩, ?_, ?_⟩
  · rw [ABB.preorden, insertarTodos_nuevo_cons, preordenRec_mk]
    rfl
  · rw [ABB.postorden, insertarTodos_nuevo_cons, postordenRec_mk, ← List.append_assoc,
      List.getLast?_concat]

/-! ## Where an insertion puts the new key -/

theorem inordenRec_insertarRec_split (t : Nodo) (v : Int) (h : esABB t) :
    ∃ l1 l2 : List Int, inordenRec t [] = l1 ++ l2 ∧
      inordenRec (insertarRec t v) [] = l1 ++ v :: l2 ∧
      (∀ x ∈ l1, x ≤ v) ∧ (∀ x ∈ l2, v < x) := by
  induction t with
  | nullptr => exact ⟨[], [], rfl, rfl, by simp, by simp⟩
  | mk dato izq der ihi ihd =>
    obtain ⟨h1, h2, h3, h4⟩ := h
    have hl := forall_mem_inordenRec_of_Todos _ izq h1
    have hr := forall_mem_inordenRec_of_Todos _ der h2
    by_cases hlt : v < dato
    · obtain ⟨l1, l2, e1, e2, p1, p2⟩ := ihi h3
      refine ⟨l1, l2 ++ dato :: inordenRec der [], ?_, ?_, p1, ?_⟩
      · rw [inordenRec_mk, e1, List.append_assoc]
      · simp only [insertarRec, if_pos hlt]
        rw [inordenRec_mk, e2]
        simp
      · intro x hx
        rcases List.mem_append.mp hx with hx | hx
        · exact p2 x hx
        · rcases List.mem_cons.mp hx with hx | hx
          · exact hx ▸ hlt
          · exact lt_of_lt_of_le hlt (hr x hx)
    · obtain ⟨r1, r2, e1, e2, p1, p2⟩ := ihd h4
      refine ⟨inordenRec izq [] ++ dato :: r1, r2, ?_, ?_, ?_, p2⟩
      · rw [inordenRec_mk, e1]
        simp
      · simp only [insertarRec, if_neg hlt]
        rw [inordenRec_mk, e2]
        simp
      · intro x hx
        rcases List.mem_append.mp hx with hx | hx
        · exact le_trans (le_of_lt (hl x hx)) (not_lt.mp hlt)
        · rcases List.mem_cons.mp hx with hx | hx
          · exact hx ▸ not_lt.mp hlt
          · exact p1 x hx

theorem insertarTrasUltimoLE_append (v : Int) (l1 l2 : List Int) (p1 : ∀ x ∈ l1, x ≤ v)
    (p2 : ∀ x ∈ l2, v < x) : insertarTrasUltimoLE v (l1 ++ l2) = l1 ++ v :: l2 := by
  induction l1 with
  | nil =>
    cases l2 with
    | nil => rfl
    | cons y ys =>
      have hany : (y :: ys).any (fun z => decide (z ≤ v)) = false := by
        rw [List.any_eq_false]
        intro z hz
        simpa using p2 z hz
      simp only [List.nil_append, insertarTrasUltimoLE, hany]
      rfl
  | cons y ys ih =>
    have hany : (y :: (ys ++ l2)).any (fun z => decide (z ≤ v)) = true := by
      rw [List.any_eq_true]
      exact ⟨y, List.mem_cons_self y _, by simpa using p1 y (List.mem_cons_self y ys)⟩
    have e : insertarTrasUltimoLE v (y :: (ys ++ l2)) = y :: insertarTrasUltimoLE v (ys ++ l2) := by
      rw [insertarTrasUltimoLE, if_pos hany]
    rw [List.cons_append, e, ih (fun x hx => p1 x (List.mem_cons_of_mem y hx))]
    rfl

theorem takeWhile_dropWhile_append (v : Int) (l1 l2 : List Int) (p1 : ∀ x ∈ l1, x ≤ v)
    (p2 : ∀ x ∈ l2, v < x) :
    (l1 ++ l2).takeWhile (fun x => decide (x ≤ v)) = l1 ∧
    (l1 ++ l2).dropWhile (fun x => decide (x ≤ v)) = l2 := by
  have q1 : ∀ x ∈ l1, decide (x ≤ v) = true := fun x hx => by simpa using p1 x hx
  rw [List.takeWhile_append_of_pos q1, List.dropWhile_append_of_pos q1]
  cases l2 with
  | nil => simp
  | cons y ys =>
    have hy : ¬ y ≤ v := not_le.mpr (p2 y (List.mem_cons_self y ys))
    simp [List.takeWhile_cons, List.dropWhile_cons, hy]

theorem insertarRecContando_fst (t : Nodo) (v : Int) :
    (insertarRecContando t v).1 = insertarRec t v := by
  induction t with
  | nullptr => rfl
  | mk dato izq der ihi ihd =>
    by_cases hlt : v < dato
    · simp only [insertarRecContando, insertarRec, if_pos hlt, ihi]
    · simp only [insertarRecContando, insertarRec, if_neg hlt, ihd]

theorem insertarRecContando_snd_le (t : Nodo) (v : Int) :
    (insertarRecContando t v).2 ≤ altura t := by
  induction t with
  | nullptr => simp [insertarRecContando, altura]
  | mk dato izq der ihi ihd =>
    by_cases hlt : v < dato
    · simp only [insertarRecContando, if_pos hlt, altura]
      omega
    · simp only [insertarRecContando, if_neg hlt, altura]
      omega

theorem altura_insertarRec (t : Nodo) (v : Int) :
    altura (insertarRec t v) = altura t ∨ altura (insertarRec t v) = altura t + 1 := by
  induction t with
  | nullptr => right; rfl
  | mk dato izq der ihi ihd =>
    by_cases hlt : v < dato
    · simp only [insertarRec, if_pos hlt, altura]
      omega
    · simp only [insertarRec, if_neg hlt, altura]
      omega

theorem agregaHoja_insertarRec (t : Nodo) (v : Int) : agregaHoja v t (insertarRec t v) = true := by
  induction t with
  | nullptr => simp [insertarRec, agregaHoja]
  | mk dato izq der ihi ihd =>
    by_cases hlt : v < dato
    · simp [insertarRec, hlt, agregaHoja, ihi]
    · simp [insertarRec, hlt, agregaHoja, ihd]

theorem preordenRec_insertarRec_split (t : Nodo) (v : Int) :
    ∃ l1 l2 : List Int, preordenRec (insertarRec t v) [] = l1 ++ v :: l2 ∧
      preordenRec t [] = l1 ++ l2 := by
  induction t with
  | nullptr => exact ⟨[], [], rfl, rfl⟩
  | mk dato izq der ihi ihd =>
    by_cases hlt : v < dato
    · obtain ⟨l1, l2, e1, e2⟩ := ihi
      refine ⟨dato :: l1, l2 ++ preordenRec der [], ?_, ?_⟩
      · simp only [insertarRec, if_pos hlt]
        rw [preordenRec_mk, e1]
        simp
      · rw [preordenRec_mk, e2]
        simp
    · obtain ⟨l1, l2, e1, e2⟩ := ihd
      refine ⟨dato :: (preordenRec izq [] ++ l1), l2, ?_, ?_⟩
      · simp only [insertarRec, if_neg hlt]
        rw [preordenRec_mk, e1]
        simp
      · rw [preordenRec_mk, e2]
        simp

theorem inordenRec_insertarRec_split_any (t : Nodo) (v : Int) :
    ∃ l1 l2 : List Int, inordenRec (insertarRec t v) [] = l1 ++ v :: l2 ∧
      inordenRec t [] = l1 ++ l2 := by
  induction t with
  | nullptr => exact ⟨[], [], rfl, rfl⟩
  | mk dato izq der ihi ihd =>
    by_cases hlt : v < dato
    · obtain ⟨l1, l2, e1, e2⟩ := ihi
      refine ⟨l1, l2 ++ dato :: inordenRec der [], ?_, ?_⟩
      · simp only [insertarRec, if_pos hlt]
        rw [inordenRec_mk, e1]
        simp
      · rw [inordenRec_mk, e2]
        simp
    · obtain ⟨l1, l2, e1, e2⟩ := ihd
      refine ⟨inordenRec izq [] ++ dato :: l1, l2, ?_, ?_⟩
      · simp only [insertarRec, if_neg hlt]
        rw [inordenRec_mk, e1]
        simp
      · rw [inordenRec_mk, e2]
        simp

theorem postordenRec_insertarRec_split (t : Nodo) (v : Int) :
    ∃ l1 l2 : List Int, postordenRec (insertarRec t v) [] = l1 ++ v :: l2 ∧
      postordenRec t [] = l1 ++ l2 := by
  induction t with
  | nullptr => exact ⟨[], [], rfl, rfl⟩
  | mk dato izq der ihi ihd =>
    by_cases hlt : v < dato
    · obtain ⟨l1, l2, e1, e2⟩ := ihi
      refine ⟨l1, l2 ++ (postordenRec der [] ++ [dato]), ?_, ?_⟩
      · simp only [insertarRec, if_pos hlt]
        rw [postordenRec_mk, e1]
        simp
      · rw [postordenRec_mk, e2]
        simp
    · obtain ⟨l1, l2, e1, e2⟩ := ihd
      refine ⟨postordenRec izq [] ++ l1, l2 ++ [dato], ?_, ?_⟩
      · simp only [insertarRec, if_neg hlt]
        rw [postordenRec_mk, e1]
        simp
      · rw [postordenRec_mk, e2]
        simp

/-- C15: for every tree satisfying the BST invariant and every key `v`, the
inorder sequence after inserting `v` is the inorder sequence before with `v`
inserted immediately after the last element that is less than or equal to
`v`, that is, after every key less than or equal to `v` and before the first
strictly greater key. -/
theorem inorden_posicion (t : Nodo) (v : Int) (h : esABB t) :
    (ABB.mk (insertarRec t v)).inorden = insertarTrasUltimoLE v (ABB.mk t).inorden ∧
    (ABB.mk (insertarRec t v)).inorden
      = (ABB.mk t).inorden.takeWhile (fun x => decide (x ≤ v))
        ++ v :: (ABB.mk t).inorden.dropWhile (fun x => decide (x ≤ v)) ∧
    (∀ x ∈ (ABB.mk t).inorden.dropWhile (fun x => decide (x ≤ v)), v < x) := by
  obtain ⟨l1, l2, e1, e2, p1, p2⟩ := inordenRec_insertarRec_split t v h
  obtain ⟨q1, q2⟩ := takeWhile_dropWhile_append v l1 l2 p1 p2
  simp only [ABB.inorden]
  rw [e1, e2, q1, q2, insertarTrasUltimoLE_append v l1 l2 p1 p2]
  exact ⟨rfl, rfl, p2⟩

/-- Witness for C15: a second key 4 inserted into the tree of the second
exercise goes right after the 4 already stored. -/
theorem inorden_posicion_witness :
    esABB (insertarTodos ABB.nuevo [1, 4, 87, 2, 6, 9, 0]).raiz ∧
    (ABB.mk (insertarRec (insertarTodos ABB.nuevo [1, 4, 87, 2, 6, 9, 0]).raiz 4)).inorden
      = insertarTrasUltimoLE 4 [0, 1, 2, 4, 6, 9, 87] ∧
    insertarTrasUltimoLE 4 [0, 1, 2, 4, 6, 9, 87] = [0, 1, 2, 4, 4, 6, 9, 87] :=
  ⟨by decide, (inorden_posicion _ 4 (by decide)).1, by decide⟩

/-- C16: for every tree `t` and key `v`, the tree after inserting `v` is `t`
with one absent child slot replaced by a new node holding `v` that has no
children, and each of the preorder, inorder and postorder sequences of `t` is
obtained from the corresponding sequence after the insertion by deleting one
occurrence of `v`. -/
theorem insertar_solo_agrega_hoja (t : Nodo) (v : Int) :
    agregaHoja v t (insertarRec t v) = true ∧
    (∃ l1 l2 : List Int, (ABB.mk (insertarRec t v)).preorden = l1 ++ v :: l2 ∧
      (ABB.mk t).preorden = l1 ++ l2) ∧
    (∃ l1 l2 : List Int, (ABB.mk (insertarRec t v)).inorden = l1 ++ v :: l2 ∧
      (ABB.mk t).inorden = l1 ++ l2) ∧
    (∃ l1 l2 : List Int, (ABB.mk (insertarRec t v)).postorden = l1 ++ v :: l2 ∧
      (ABB.mk t).postorden = l1 ++ l2) :=
  ⟨agregaHoja_insertarRec t v, preordenRec_insertarRec_split t v,
    inordenRec_insertarRec_split_any t v, postordenRec_insertarRec_split t v⟩

/-- C17: for every tree `t` of height `h` and every key `v`, the call
`insertarRec(t, v)` evaluates the test `v < nodo->dato` at most `h` times, and
the height of the tree it returns is `h` or `h + 1`. -/
theorem insertar_costo_altura (t : Nodo) (v : Int) :
    (insertarRecContando t v).1 = insertarRec t v ∧
    (insertarRecContando t v).2 ≤ altura t ∧
    (altura (insertarRec t v) = altura t ∨ altura (insertarRec t v) = altura t + 1) :=
  ⟨insertarRecContando_fst t v, insertarRecContando_snd_le t v, altura_insertarRec t v⟩

/-! ## The free store: insertion and `liberar` -/

namespace Memoria

theorem representa_congr (c c1 : Nat → Celda) (T : ArbolDir)
    (h : ∀ b ∈ T.dirs, c1 b = c b) (hrep : Representa c T) : Representa c1 T := by
  induction T with
  | nullptr => trivial
  | mk dir dato izq der ihi ihd =>
    obtain ⟨h1, h2, h3⟩ := hrep
    refine ⟨?_, ihi (fun b hb => h b ?_) h2, ihd (fun b hb => h b ?_) h3⟩
    · rw [h dir (by simp [ArbolDir.dirs]), h1]
    · simp [ArbolDir.dirs, hb]
    · simp [ArbolDir.dirs, hb]

theorem perm_dirs_insertar (n : Nat) (T : ArbolDir) (v : Int) :
    (T.insertar n v).dirs.Perm (n :: T.dirs) := by
  induction T with
  | nullptr => simp [ArbolDir.insertar, ArbolDir.dirs]
  | mk dir dato izq der ihi ihd =>
    by_cases hlt : v < dato
    · simp only [ArbolDir.insertar, if_pos hlt, ArbolDir.dirs, List.append_assoc]
      exact (ihi.append_right _).trans (by simp)
    · simp only [ArbolDir.insertar, if_neg hlt, ArbolDir.dirs, List.append_assoc]
      refine ((ihd.append_right _).append_left _).trans ?_
      simp only [List.cons_append]
      exact List.perm_middle

theorem arbol_insertar (n : Nat) (T : ArbolDir) (v : Int) :
    (T.insertar n v).arbol = ArbolABB.insertarRec T.arbol v := by
  induction T with
  | nullptr => rfl
  | mk dir dato izq der ihi ihd =>
    by_cases hlt : v < dato
    · simp only [ArbolDir.insertar, ArbolDir.arbol, ArbolABB.insertarRec, if_pos hlt, ihi]
    · simp only [ArbolDir.insertar, ArbolDir.arbol, ArbolABB.insertarRec, if_neg hlt, ihd]

theorem altura_arbol_le (T : ArbolDir) : altura T.arbol ≤ T.dirs.length := by
  induction T with
  | nullptr => simp [ArbolDir.arbol, altura]
  | mk dir dato izq der ihi ihd =>
    simp only [ArbolDir.arbol, altura, ArbolDir.dirs, List.length_append, List.length_singleton]
    omega

/-- Insertion over the free store, on a store that lays out a tree at distinct
addresses already handed out: with a budget above the height it returns, it
allocates one object at the next address, it deletes nothing, it leaves every
object outside the tree as it was, and the store it returns lays out the tree
with the new leaf. -/
theorem insertarRec_representa (T : ArbolDir) (v : Int) (f : Nat) (h : Monticulo)
    (hrep : Representa h.celdas T) (hnd : T.dirs.Nodup) (hlt : ∀ a ∈ T.dirs, a < h.sig)
    (hf : altura T.arbol < f) :
    ∃ h1 : Monticulo, insertarRec f h T.ptr v = .ok (h1, (T.insertar h.sig v).ptr) ∧
      Representa h1.celdas (T.insertar h.sig v) ∧ h1.sig = h.sig + 1 ∧
      h1.borrados = h.borrados ∧
      ∀ b, b ∉ T.dirs → b ≠ h.sig → h1.celdas b = h.celdas b := by
  induction T generalizing f with
  | nullptr =>
    obtain ⟨f, rfl⟩ : ∃ g, f = g + 1 := ⟨f - 1, by omega⟩
    refine ⟨(h.nuevoNodo v).1, rfl, ?_, rfl, rfl, ?_⟩
    · simp [ArbolDir.insertar, Representa, Monticulo.nuevoNodo, ArbolDir.ptr]
    · intro b _ hb
      simp [Monticulo.nuevoNodo, Function.update_noteq hb]
  | mk dir dato izq der ihi ihd =>
    obtain ⟨f, rfl⟩ : ∃ g, f = g + 1 := ⟨f - 1, by omega⟩
    obtain ⟨hc, hri, hrd⟩ := hrep
    simp only [ArbolDir.dirs, List.nodup_append, List.mem_append, List.mem_singleton,
      List.nodup_cons, List.not_mem_nil, not_false_eq_true, List.nodup_nil, and_true,
      List.Disjoint] at hnd
    simp only [ArbolDir.arbol, altura] at hf
    have hdir : dir < h.sig := hlt dir (by simp [ArbolDir.dirs])
    have hdi : dir ∉ izq.dirs := fun hm => hnd.2.2 (Or.inl hm) rfl
    have hdd : dir ∉ der.dirs := fun hm => hnd.2.2 (Or.inr hm) rfl
    by_cases hv : v < dato
    · obtain ⟨h1, e1, r1, s1, b1, fr1⟩ := ihi f hri hnd.1.1
        (fun a ha => hlt a (by simp [ArbolDir.dirs, ha])) (by omega)
      have hc1 : h1.celdas dir = .viva dato izq.ptr der.ptr := by
        rw [fr1 dir hdi (by omega), hc]
      refine ⟨⟨Function.update h1.celdas dir (.viva dato (izq.insertar h.sig v).ptr der.ptr),
        h1.sig, h1.borrados⟩, ?_, ?_, s1, b1, ?_⟩
      · have eR : (ArbolDir.insertar h.sig (.mk dir dato izq der) v).ptr = some dir := by
          simp only [ArbolDir.insertar, if_pos hv, ArbolDir.ptr]
        rw [eR]
        show insertarRec (f + 1) h (some dir) v = _
        simp only [insertarRec, hc, if_pos hv, e1, hc1]
      · simp only [ArbolDir.insertar, if_pos hv]
        refine ⟨by simp, ?_, ?_⟩
        · refine representa_congr h1.celdas _ _ (fun b hb => ?_) r1
          have hb2 := (perm_dirs_insertar h.sig izq v).mem_iff.mp hb
          have hne : b ≠ dir := by
            rintro rfl
            rcases List.mem_cons.mp hb2 with e | e
            · omega
            · exact hdi e
          simp [Function.update_noteq hne]
        · refine representa_congr h.celdas _ _ (fun b hb => ?_) hrd
          have hne : b ≠ dir := fun e => hdd (e ▸ hb)
          have hbi : b ∉ izq.dirs := fun hm => hnd.1.2.2 hm hb
          have hbs : b ≠ h.sig := by
            have := hlt b (by simp [ArbolDir.dirs, hb])
            omega
          simp only [Function.update_noteq hne]
          exact fr1 b hbi hbs
      · intro b hb hbs
        simp only [ArbolDir.dirs, List.mem_append, List.mem_singleton, not_or] at hb
        simp only [Function.update_noteq hb.2]
        exact fr1 b hb.1.1 hbs
    · obtain ⟨h1, e1, r1, s1, b1, fr1⟩ := ihd f hrd hnd.1.2.1
        (fun a ha => hlt a (by simp [ArbolDir.dirs, ha])) (by omega)
      have hc1 : h1.celdas dir = .viva dato izq.ptr der.ptr := by
        rw [fr1 dir hdd (by omega), hc]
      refine ⟨⟨Function.update h1.celdas dir (.viva dato izq.ptr (der.insertar h.sig v).ptr),
        h1.sig, h1.borrados⟩, ?_, ?_, s1, b1, ?_⟩
      · have eR : (ArbolDir.insertar h.sig (.mk dir dato izq der) v).ptr = some dir := by
          simp only [ArbolDir.insertar, if_neg hv, ArbolDir.ptr]
        rw [eR]
        show insertarRec (f + 1) h (some dir) v = _
        simp only [insertarRec, hc, if_neg hv, e1, hc1]
      · simp only [ArbolDir.insertar, if_neg hv]
        refine ⟨by simp, ?_, ?_⟩
        · refine representa_congr h.celdas _ _ (fun b hb => ?_) hri
          have hne : b ≠ dir := fun e => hdi (e ▸ hb)
          have hbd : b ∉ der.dirs := fun hm => hnd.1.2.2 hb hm
          have hbs : b ≠ h.sig := by
            have := hlt b (by simp [ArbolDir.dirs, hb])
            omega
          simp only [Function.update_noteq hne]
          exact fr1 b hbd hbs
        · refine representa_congr h1.celdas _ _ (fun b hb => ?_) r1
          have hb2 := (perm_dirs_insertar h.sig der v).mem_iff.mp hb
          have hne : b ≠ dir := by
            rintro rfl
            rcases List.mem_cons.mp hb2 with e | e
            · omega
            · exact hdd e
          simp [Function.update_noteq hne]
      · intro b hb hbs
        simp only [ArbolDir.dirs, List.mem_append, List.mem_singleton, not_or] at hb
        simp only [Function.update_noteq hb.2]
        exact fr1 b hb.1.2 hbs

end Memoria

namespace Memoria

/-- `liberar` on a store that lays out a tree at distinct addresses: with a
budget above the height it returns, it deletes the addresses of the tree in
the order children before parent, and it leaves every other address as it
was. -/
theorem liberar_representa (T : ArbolDir) (f : Nat) (h : Monticulo)
    (hrep : Representa h.celdas T) (hnd : T.dirs.Nodup) (hf : altura T.arbol < f) :
    ∃ h1 : Monticulo, liberar f h T.ptr = .ok h1 ∧ h1.sig = h.sig ∧
      h1.borrados = h.borrados ++ T.dirs ∧
      ∀ b, h1.celdas b = if b ∈ T.dirs then .borrada else h.celdas b := by
  induction T generalizing f h with
  | nullptr =>
    obtain ⟨f, rfl⟩ : ∃ g, f = g + 1 := ⟨f - 1, by omega⟩
    exact ⟨h, rfl, rfl, by simp [ArbolDir.dirs], by simp [ArbolDir.dirs]⟩
  | mk dir dato izq der ihi ihd =>
    obtain ⟨f, rfl⟩ : ∃ g, f = g + 1 := ⟨f - 1, by omega⟩
    obtain ⟨hc, hri, hrd⟩ := hrep
    simp only [ArbolDir.dirs, List.nodup_append, List.mem_append, List.mem_singleton,
      List.nodup_cons, List.not_mem_nil, not_false_eq_true, List.nodup_nil, and_true,
      List.Disjoint] at hnd
    simp only [ArbolDir.arbol, altura] at hf
    have hdi : dir ∉ izq.dirs := fun hm => hnd.2.2 (Or.inl hm) rfl
    have hdd : dir ∉ der.dirs := fun hm => hnd.2.2 (Or.inr hm) rfl
    obtain ⟨h1, e1, s1, b1, c1⟩ := ihi f h hri hnd.1.1 (by omega)
    have hc1 : h1.celdas dir = .viva dato izq.ptr der.ptr := by
      rw [c1 dir, if_neg hdi, hc]
    have hrd1 : Representa h1.celdas der := by
      refine representa_congr h.celdas _ _ (fun b hb => ?_) hrd
      rw [c1 b, if_neg (fun hm => hnd.1.2.2 hm hb)]
    obtain ⟨h2, e2, s2, b2, c2⟩ := ihd f h1 hrd1 hnd.1.2.1 (by omega)
    have hc2 : h2.celdas dir = .viva dato izq.ptr der.ptr := by
      rw [c2 dir, if_neg hdd, hc1]
    refine ⟨⟨Function.update h2.celdas dir .borrada, h2.sig, h2.borrados ++ [dir]⟩, ?_, ?_, ?_, ?_⟩
    · show liberar (f + 1) h (some dir) = _
      simp only [liberar, hc, e1, hc1, e2, hc2]
    · show h2.sig = h.sig
      rw [s2, s1]
    · show h2.borrados ++ [dir] = h.borrados ++ (izq.dirs ++ der.dirs ++ [dir])
      rw [b2, b1]
      simp
    · intro b
      show Function.update h2.celdas dir Celda.borrada b = _
      by_cases hb : b = dir
      · subst hb
        simp [ArbolDir.dirs]
      · rw [Function.update_noteq hb, c2 b, c1 b]
        by_cases hbd : b ∈ der.dirs
        · simp [ArbolDir.dirs, hbd]
        · by_cases hbi : b ∈ izq.dirs
          · simp [ArbolDir.dirs, hbi]
          · simp [ArbolDir.dirs, hbd, hbi, hb]

/-- In the deletion order of a layout, the address of a child comes before the
address of its parent. -/
theorem hijo_antes_en_dirs (c : Nat → Celda) (T : ArbolDir) (hrep : Representa c T)
    (p : Nat) (hp : p ∈ T.dirs) (dato : Int) (izq der : Option Nat)
    (hc : c p = .viva dato izq der) (q : Nat) (hq : izq = some q ∨ der = some q) :
    ∃ l1 l2 l3 : List Nat, T.dirs = l1 ++ q :: l2 ++ p :: l3 := by
  induction T with
  | nullptr => simp [ArbolDir.dirs] at hp
  | mk dir d L R ihi ihd =>
    obtain ⟨h1, h2, h3⟩ := hrep
    simp only [ArbolDir.dirs, List.mem_append, List.mem_singleton] at hp
    rcases hp with (hp | hp) | hp
    · obtain ⟨l1, l2, l3, e⟩ := ihi h2 hp
      exact ⟨l1, l2, l3 ++ R.dirs ++ [dir], by simp [ArbolDir.dirs, e]⟩
    · obtain ⟨l1, l2, l3, e⟩ := ihd h3 hp
      exact ⟨L.dirs ++ l1, l2, l3 ++ [dir], by simp [ArbolDir.dirs, e]⟩
    · subst hp
      rw [h1] at hc
      injection hc with _ e2 e3
      rcases hq with hq | hq
      · rw [hq] at e2
        cases L with
        | nullptr => simp [ArbolDir.ptr] at e2
        | mk dl _ LL LR =>
          simp only [ArbolDir.ptr, Option.some.injEq] at e2
          subst e2
          exact ⟨LL.dirs ++ LR.dirs, R.dirs, [], by simp [ArbolDir.dirs]⟩
      · rw [hq] at e3
        cases R with
        | nullptr => simp [ArbolDir.ptr] at e3
        | mk dr _ RL RR =>
          simp only [ArbolDir.ptr, Option.some.injEq] at e3
          subst e3
          exact ⟨L.dirs ++ (RL.dirs ++ RR.dirs), [], [], by simp [ArbolDir.dirs]⟩

/-- The insertion loop over the free store, started on a store that lays out a
tree: with a budget above the final number of nodes it returns a store that
lays out the tree built by the loop over trees, having allocated one object
per key at consecutive addresses and deleted nothing. -/
theorem insertarTodos_representa (xs : List Int) (f : Nat) (a : ABB) (T : ArbolDir)
    (hp : a.raiz = T.ptr) (hrep : Representa a.mont.celdas T) (hnd : T.dirs.Nodup)
    (hlt : ∀ b ∈ T.dirs, b < a.mont.sig) (hf : T.dirs.length + xs.length < f) :
    ∃ (a1 : ABB) (T1 : ArbolDir), insertarTodos f a xs = .ok a1 ∧ a1.raiz = T1.ptr ∧
      Representa a1.mont.celdas T1 ∧ T1.dirs.Nodup ∧
      T1.arbol = (ArbolABB.insertarTodos ⟨T.arbol⟩ xs).raiz ∧
      a1.mont.sig = a.mont.sig + xs.length ∧ a1.mont.borrados = a.mont.borrados ∧
      (∀ b, b ∈ T1.dirs ↔ b ∈ T.dirs ∨ (a.mont.sig ≤ b ∧ b < a.mont.sig + xs.length)) ∧
      (∀ b, b ∉ T.dirs → (b < a.mont.sig ∨ a.mont.sig + xs.length ≤ b) →
        a1.mont.celdas b = a.mont.celdas b) := by
  induction xs generalizing a T with
  | nil =>
    refine ⟨a, T, rfl, hp, hrep, hnd, rfl, rfl, rfl, ?_, fun _ _ _ => rfl⟩
    intro b
    simp only [List.length_nil, Nat.add_zero]
    constructor
    · exact fun hb => Or.inl hb
    · rintro (hb | hb)
      · exact hb
      · omega
  | cons x xs ih =>
    simp only [List.length_cons] at hf
    obtain ⟨h1, e1, r1, s1, b1, fr1⟩ := insertarRec_representa T x f a.mont hrep hnd hlt
      (lt_of_le_of_lt (altura_arbol_le T) (by omega))
    have hperm := perm_dirs_insertar a.mont.sig T x
    have hnd1 : (T.insertar a.mont.sig x).dirs.Nodup := by
      rw [hperm.nodup_iff, List.nodup_cons]
      exact ⟨fun hm => lt_irrefl _ (hlt _ hm), hnd⟩
    have hlt1 : ∀ b ∈ (T.insertar a.mont.sig x).dirs, b < h1.sig := by
      intro b hb
      rw [s1]
      rcases List.mem_cons.mp (hperm.mem_iff.mp hb) with e | e
      · omega
      · have := hlt b e
        omega
    have hlen : (T.insertar a.mont.sig x).dirs.length = T.dirs.length + 1 := by
      rw [hperm.length_eq, List.length_cons]
    obtain ⟨a1, T1, e2, p2, r2, n2, t2, s2, b2, m2, fr2⟩ :=
      ih ⟨h1, (T.insertar a.mont.sig x).ptr⟩ (T.insertar a.mont.sig x) rfl r1 hnd1 hlt1
        (by rw [hlen]; omega)
    refine ⟨a1, T1, ?_, p2, r2, n2, ?_, ?_, ?_, ?_, ?_⟩
    · have ei : a.insertar f x = .ok ⟨h1, (T.insertar a.mont.sig x).ptr⟩ := by
        simp only [ABB.insertar, hp, e1]
      simp only [insertarTodos, ei, e2]
    · rw [t2, arbol_insertar]
      rfl
    · rw [s2]
      show h1.sig + xs.length = a.mont.sig + (xs.length + 1)
      omega
    · rw [b2]
      exact b1
    · intro b
      rw [m2 b, hperm.mem_iff, List.mem_cons]
      show (b = a.mont.sig ∨ b ∈ T.dirs) ∨ (h1.sig ≤ b ∧ b < h1.sig + xs.length) ↔ _
      rw [s1, List.length_cons]
      constructor
      · rintro ((hb | hb) | hb)
        · exact Or.inr (by omega)
        · exact Or.inl hb
        · exact Or.inr (by omega)
      · rintro (hb | hb)
        · exact Or.inl (Or.inr hb)
        · by_cases e : b = a.mont.sig
          · exact Or.inl (Or.inl e)
          · exact Or.inr (by omega)
    · intro b hb hrange
      rw [List.length_cons] at hrange
      have hbs : b ≠ a.mont.sig := by omega
      rw [fr2 b (fun hm => by
        rcases List.mem_cons.mp (hperm.mem_iff.mp hm) with e | e
        · exact hbs e
        · exact hb e) (by
        show b < h1.sig ∨ h1.sig + xs.length ≤ b
        rw [s1]
        omega)]
      exact fr1 b hb hbs

end Memoria

namespace Memoria

theorem viva_of_representa (c : Nat → Celda) (T : ArbolDir) (hrep : Representa c T)
    (b : Nat) (hb : b ∈ T.dirs) : ∃ d i r, c b = .viva d i r := by
  induction T with
  | nullptr => simp [ArbolDir.dirs] at hb
  | mk dir d L R ihi ihd =>
    obtain ⟨h1, h2, h3⟩ := hrep
    simp only [ArbolDir.dirs, List.mem_append, List.mem_singleton] at hb
    rcases hb with (hb | hb) | hb
    · exact ihi h2 hb
    · exact ihd h3 hb
    · exact ⟨d, L.ptr, R.ptr, hb ▸ h1⟩

/-- C14: for every `n ≥ 0` and every sequence of `n` keys inserted into a fresh
`ABB`, with a recursion budget above `n`, the insertions return a store whose
live objects are the `n` nodes of the tree built by the insertions; on it
`liberar`, run by the destructor and by `limpiar`, returns without reading or
deleting an object that is not live; afterwards every node is deleted and no
other address has changed; every node was deleted exactly once; and both
children of a node were deleted before the node itself. -/
theorem liberar_sin_fugas (xs : List Int) (f : Nat) (hf : xs.length < f) :
    ∃ (a : ABB) (T : ArbolDir) (h1 : Monticulo),
      insertarTodos f ABB.nuevo xs = .ok a ∧
      a.raiz = T.ptr ∧ Representa a.mont.celdas T ∧
      T.arbol = (ArbolABB.insertarTodos ArbolABB.ABB.nuevo xs).raiz ∧
      (∀ b, (∃ d i r, a.mont.celdas b = .viva d i r) ↔ b < xs.length) ∧
      a.destruir f = .ok h1 ∧ a.limpiar f = .ok ⟨h1, none⟩ ∧
      (∀ b, h1.celdas b = if b < xs.length then .borrada else .libre) ∧
      h1.borrados.Perm (List.range xs.length) ∧
      (∀ (p : Nat) (d : Int) (i r : Option Nat) (q : Nat), a.mont.celdas p = .viva d i r →
        (i = some q ∨ r = some q) → ∃ l1 l2 l3 : List Nat, h1.borrados = l1 ++ q :: l2 ++ p :: l3) := by
  obtain ⟨a, T, e1, hp, hrep, hnd, harbol, _, hb, hmem, hfr⟩ :=
    insertarTodos_representa xs f ABB.nuevo .nullptr rfl trivial (by simp [ArbolDir.dirs])
      (by simp [ArbolDir.dirs]) (by simpa [ArbolDir.dirs] using hf)
  have hmem1 : ∀ b, b ∈ T.dirs ↔ b < xs.length := by
    intro b
    rw [hmem b]
    simp [ArbolDir.dirs, ABB.nuevo, Monticulo.vacio]
  have hlen : T.dirs.length = xs.length := by
    have hperm : T.dirs.Perm (List.range xs.length) :=
      (List.perm_ext_iff_of_nodup hnd (List.nodup_range _)).mpr
        (fun b => by rw [hmem1 b, List.mem_range])
    rw [hperm.length_eq, List.length_range]
  have hlibre : ∀ b, ¬ b < xs.length → a.mont.celdas b = .libre := by
    intro b hb1
    rw [hfr b (by simp [ArbolDir.dirs]) (Or.inr (by
      show (0 : Nat) + xs.length ≤ b
      omega))]
    rfl
  obtain ⟨h1, e2, _, hb2, hc2⟩ := liberar_representa T f a.mont hrep hnd
    (lt_of_le_of_lt (altura_arbol_le T) (by omega))
  have hlog : h1.borrados = T.dirs := by
    rw [hb2, hb]
    rfl
  have hviva : ∀ b, (∃ d i r, a.mont.celdas b = .viva d i r) ↔ b < xs.length := by
    intro b
    constructor
    · rintro ⟨d, i, r, hc⟩
      by_contra hn
      rw [hlibre b hn] at hc
      cases hc
    · intro hlt
      exact viva_of_representa _ T hrep b ((hmem1 b).mpr hlt)
  refine ⟨a, T, h1, e1, hp, hrep, harbol, hviva, ?_, ?_, ?_, ?_, ?_⟩
  · rw [ABB.destruir, hp, e2]
  · simp only [ABB.limpiar, hp, e2]
  · intro b
    rw [hc2 b]
    by_cases hlt : b < xs.length
    · rw [if_pos ((hmem1 b).mpr hlt), if_pos hlt]
    · rw [if_neg (fun hm => hlt ((hmem1 b).mp hm)), if_neg hlt]
      exact hlibre b hlt
  · rw [hlog]
    exact (List.perm_ext_iff_of_nodup hnd (List.nodup_range _)).mpr
      (fun b => by rw [hmem1 b, List.mem_range])
  · intro p d i r q hc hq
    rw [hlog]
    exact hijo_antes_en_dirs _ T hrep p ((hmem1 p).mpr ((hviva p).mp ⟨d, i, r, hc⟩)) d i r hc q hq

/-- Witness for C14: the keys 5, 5, 3 with the budget 4. -/
theorem liberar_sin_fugas_witness :
    [(5 : Int), 5, 3].length < 4 ∧
    ∃ (a : ABB) (T : ArbolDir) (h1 : Monticulo),
      insertarTodos 4 ABB.nuevo [5, 5, 3] = .ok a ∧
      a.raiz = T.ptr ∧ Representa a.mont.celdas T ∧
      T.arbol = (ArbolABB.insertarTodos ArbolABB.ABB.nuevo [5, 5, 3]).raiz ∧
      (∀ b, (∃ d i r, a.mont.celdas b = .viva d i r) ↔ b < [(5 : Int), 5, 3].length) ∧
      a.destruir 4 = .ok h1 ∧ a.limpiar 4 = .ok ⟨h1, none⟩ ∧
      (∀ b, h1.celdas b = if b < [(5 : Int), 5, 3].length then .borrada else .libre) ∧
      h1.borrados.Perm (List.range [(5 : Int), 5, 3].length) ∧
      (∀ (p : Nat) (d : Int) (i r : Option Nat) (q : Nat), a.mont.celdas p = .viva d i r →
        (i = some q ∨ r = some q) → ∃ l1 l2 l3 : List Nat, h1.borrados = l1 ++ q :: l2 ++ p :: l3) :=
  ⟨by decide, liberar_sin_fugas [5, 5, 3] 4 (by decide)⟩

end Memoria

end ArbolABB
